import Mathlib

/-!
# Shallow embedding of the elasticsearch request-construction layer

This file embeds the request types of the `elasticsearch` Go package
(`requests.go` and the bulk-request file defining `actionMetadata`,
`IndexRequest`, `CreateRequest`, `UpdateRequest`, `DeleteRequest` and
`BulkIndexRequest`) and proves the specification claims about them.

Modelling conventions:
* `url.Values` (a Go map from string keys to lists of string values) is an
  association list; the Go map variable itself is `Option` of that, `none`
  being Go's nil map.  Go maps have unique keys, so claims that depend on
  map semantics carry a `Nodup` hypothesis on the key list, and run-to-run
  map iteration order is quantified by list permutations.
* Byte streams written to an `io.Writer` are `List Char`.
  `json.NewEncoder(w).Encode(v)` first marshals `v` completely and only
  writes on success, so each serialization step is `Except String (List Char)`:
  `.ok bytes` means exactly `bytes` were written, `.error e` means nothing
  was written and `e` was returned.
* Opaque payloads (`Source interface{}`, and the `SubQuery` query type which
  is repository code not present under `src/`) are represented by the outcome
  of `json.Marshal` on them, an `Except String (List Char)`.
* Go's `json.Marshal` renders a `map[string]string` as a single-line JSON
  object with the keys sorted; keys are unique in a map, so sorting the
  pairs lexicographically coincides with Go's sort-by-key and is used here.
-/

/-- The contents of a Go `url.Values` map: keys to lists of values. -/
abbrev Values := List (String × List String)

/-- A Go `url.Values` variable: `none` is Go's nil map. -/
abbrev URLValues := Option Values

/-- Association-list lookup: the Go map read `m[k]`. -/
def lookupA {β : Type} : List (String × β) → String → Option β
  | [], _ => none
  | p :: rest, k => if p.1 = k then some p.2 else lookupA rest k

/-- Go map assignment `m[k] = v` on an association list with unique keys:
overwrite the entry if the key is present, append it otherwise. -/
def updateAssoc : List (String × String) → String → String → List (String × String)
  | [], k, v => [(k, v)]
  | p :: rest, k, v => if p.1 = k then (k, v) :: rest else p :: updateAssoc rest k v

/-- `url.Values.Get`: the first value associated with the key, or `""` when
the map is nil, the key is absent, or its value list is empty. -/
def valuesGet (v : URLValues) (k : String) : String :=
  match lookupA (v.getD []) k with
  | some (x :: _) => x
  | _ => ""

/-- The base fields of the bulk action metadata object. -/
def baseMeta (index t id : String) : List (String × String) :=
  [("_index", index), ("_type", t), ("_id", id)]

/-- The metadata map built by `actionMetadata` in the source: start from
`_index/_type/_id`, then for each key of the extra options set
`metadata[k] = v.Get(k)` (the first value), overwriting any earlier entry. -/
def actionMetadataMap (index t id : String) (v : URLValues) : List (String × String) :=
  (v.getD []).foldl (fun m kv => updateAssoc m kv.1 (valuesGet v kv.1))
    (baseMeta index t id)

/-- The left-brace character (code point 123). -/
def lbrace : Char := Char.ofNat 123

/-- The right-brace character (code point 125). -/
def rbrace : Char := Char.ofNat 125

/-- Lower-case hexadecimal digit, as used by Go's JSON `\u00xx` escapes. -/
def hexDigit (n : Nat) : Char :=
  if n < 10 then Char.ofNat (48 + n) else Char.ofNat (87 + n)

/-- Escaping of one character by Go's `encoding/json` string encoder
(compact output, HTML escaping on, as `json.Marshal` and `Encoder.Encode`
use): quote, backslash and control characters are escaped, as are the
HTML-sensitive characters. -/
def escapeChar (c : Char) : List Char :=
  if c = '"' then ['\\', '"']
  else if c = '\\' then ['\\', '\\']
  else if c = '\n' then ['\\', 'n']
  else if c = '\r' then ['\\', 'r']
  else if c = '\t' then ['\\', 't']
  else if c = '<' then ['\\', 'u', '0', '0', '3', 'c']
  else if c = '>' then ['\\', 'u', '0', '0', '3', 'e']
  else if c = '&' then ['\\', 'u', '0', '0', '2', '6']
  else if c.toNat < 32 then
    ['\\', 'u', '0', '0', hexDigit (c.toNat / 16), hexDigit (c.toNat % 16)]
  else [c]

/-- JSON string-body escaping over a character list. -/
def escapeList : List Char → List Char
  | [] => []
  | c :: cs => escapeChar c ++ escapeList cs

/-- A JSON string literal: quote, escaped body, quote. -/
def quoteJson (s : String) : List Char :=
  '"' :: (escapeList s.data ++ ['"'])

/-- Comma-join of rendered JSON fragments (compact form, no spaces). -/
def joinComma : List (List Char) → List Char
  | [] => []
  | [x] => x
  | x :: y :: xs => x ++ ',' :: joinComma (y :: xs)

/-- One `"key":"value"` member of a JSON object of strings. -/
def renderField (p : String × String) : List Char :=
  quoteJson p.1 ++ ':' :: quoteJson p.2

/-- Lexicographic order on rendered pairs; on the unique-keyed pair lists
produced from Go maps it coincides with Go's sort-by-key. -/
def lexLe (p q : String × String) : Prop :=
  p.1 < q.1 ∨ (p.1 = q.1 ∧ p.2 ≤ q.2)

instance : DecidableRel lexLe := fun p q => by
  unfold lexLe; exact inferInstance

/-- Sort the members of a string-to-string object the way Go's JSON encoder
does before rendering a map. -/
def sortPairs (l : List (String × String)) : List (String × String) :=
  List.insertionSort lexLe l

/-- `json.Marshal` of a `map[string]string`: a compact object with the
members sorted by key. -/
def renderObj (m : List (String × String)) : List Char :=
  lbrace :: (joinComma ((sortPairs m).map renderField) ++ [rbrace])

/-- `json.Marshal(actionMetadata(action, index, t, id, v))`: the single-key
object `{action: {_index, _type, _id, flattened extra options}}`. -/
def renderActionHeader (action index t id : String) (v : URLValues) : List Char :=
  lbrace :: (quoteJson action ++ ':' :: (renderObj (actionMetadataMap index t id v) ++ [rbrace]))

/-- A JSON array of strings. -/
def renderStrArray (xs : List String) : List Char :=
  '[' :: (joinComma (xs.map quoteJson) ++ [']'])

/-- The members of the multi-search `headerLine` struct, in declaration
order, with `omitempty` semantics: an empty slice is omitted. -/
def searchHeaderFields (indices types : List String) : List (List Char) :=
  (if indices = [] then [] else [quoteJson "index" ++ ':' :: renderStrArray indices]) ++
    (if types = [] then [] else [quoteJson "type" ++ ':' :: renderStrArray types])

/-- `json.Marshal` of the multi-search `headerLine` struct. -/
def renderSearchHeader (indices types : List String) : List Char :=
  lbrace :: (joinComma (searchHeaderFields indices types) ++ [rbrace])

/-- `SearchRequest` from `requests.go`.  `Query` is the opaque `SubQuery`
payload.  Modelled from the spec: `SubQuery` is repository code not present
under `src/`; the spec treats it as an opaque serializable query payload, so
it is represented by the outcome of `json.Marshal` on it. -/
structure SearchRequest where
  Indices : List String
  Types : List String
  Query : Except String (List Char)
  Params : URLValues

/-- `SearchRequest.Path`: the four-way switch on emptiness of the index and
type lists.  The Go `switch true` has a trailing `panic("unreachable")`;
the four cases are exhaustive, so the final branch of the chain is the
both-non-empty case. -/
def SearchRequest.Path (r : SearchRequest) : String :=
  if r.Indices.length = 0 ∧ r.Types.length = 0 then
    "/_search"
  else if r.Indices.length > 0 ∧ r.Types.length = 0 then
    "/" ++ String.intercalate "," r.Indices ++ "/_search"
  else if r.Indices.length = 0 ∧ r.Types.length > 0 then
    "/_all/" ++ String.intercalate "," r.Types ++ "/_search"
  else
    "/" ++ String.intercalate "," r.Indices ++ "/" ++
      String.intercalate "," r.Types ++ "/_search"

/-- `SearchRequest.Values`: a nil `Params` map is replaced by the empty
(non-nil) `url.Values{}`. -/
def SearchRequest.Values (r : SearchRequest) : URLValues :=
  match r.Params with
  | none => some []
  | some p => some p

/-- `SearchRequest.Serialize`: `json.NewEncoder(w).Encode(r.Query)` — the
marshalled query followed by a newline, or the marshal error with nothing
written. -/
def SearchRequest.Serialize (r : SearchRequest) : Except String (List Char) :=
  match r.Query with
  | .ok b => .ok (b ++ ['\n'])
  | .error e => .error e

/-- `SearchRequest.SerializeBatchHeader`: encode the `headerLine` struct
(with `omitempty` index/type lists); marshalling string slices cannot
fail. -/
def SearchRequest.SerializeBatchHeader (r : SearchRequest) : Except String (List Char) :=
  .ok (renderSearchHeader r.Indices r.Types ++ ['\n'])

/-- `IndexRequest` from the bulk-request source file.  `Type'` is the Go
field `Type` (a reserved word here); `Source` is the opaque document
payload, represented by its `json.Marshal` outcome. -/
structure IndexRequest where
  Index : String
  Type' : String
  Id : String
  Params : URLValues
  Source : Except String (List Char)

/-- `IndexRequest.Values` returns `r.Params` unchanged (nil included). -/
def IndexRequest.Values (r : IndexRequest) : URLValues :=
  r.Params

/-- `IndexRequest.Serialize`: encode the document source. -/
def IndexRequest.Serialize (r : IndexRequest) : Except String (List Char) :=
  match r.Source with
  | .ok b => .ok (b ++ ['\n'])
  | .error e => .error e

/-- `IndexRequest.SerializeBatchHeader`: encode
`actionMetadata("index", ...)`; marshalling a string map cannot fail. -/
def IndexRequest.SerializeBatchHeader (r : IndexRequest) : Except String (List Char) :=
  .ok (renderActionHeader "index" r.Index r.Type' r.Id r.Params ++ ['\n'])

/-- `CreateRequest` from the bulk-request source file. -/
structure CreateRequest where
  Index : String
  Type' : String
  Id : String
  Params : URLValues
  Source : Except String (List Char)

/-- `CreateRequest.Values` returns `r.Params` unchanged. -/
def CreateRequest.Values (r : CreateRequest) : URLValues :=
  r.Params

/-- `CreateRequest.Serialize`: encode the document source. -/
def CreateRequest.Serialize (r : CreateRequest) : Except String (List Char) :=
  match r.Source with
  | .ok b => .ok (b ++ ['\n'])
  | .error e => .error e

/-- `CreateRequest.SerializeBatchHeader`: encode
`actionMetadata("create", ...)`. -/
def CreateRequest.SerializeBatchHeader (r : CreateRequest) : Except String (List Char) :=
  .ok (renderActionHeader "create" r.Index r.Type' r.Id r.Params ++ ['\n'])

/-- `UpdateRequest` from the bulk-request source file. -/
structure UpdateRequest where
  Index : String
  Type' : String
  Id : String
  Params : URLValues
  Source : Except String (List Char)

/-- `UpdateRequest.Values` returns `r.Params` unchanged. -/
def UpdateRequest.Values (r : UpdateRequest) : URLValues :=
  r.Params

/-- `UpdateRequest.Serialize`: encode the document source. -/
def UpdateRequest.Serialize (r : UpdateRequest) : Except String (List Char) :=
  match r.Source with
  | .ok b => .ok (b ++ ['\n'])
  | .error e => .error e

/-- `UpdateRequest.SerializeBatchHeader`: encode
`actionMetadata("update", ...)`. -/
def UpdateRequest.SerializeBatchHeader (r : UpdateRequest) : Except String (List Char) :=
  .ok (renderActionHeader "update" r.Index r.Type' r.Id r.Params ++ ['\n'])

/-- `DeleteRequest` from the bulk-request source file: no document
payload. -/
structure DeleteRequest where
  Index : String
  Type' : String
  Id : String
  Params : URLValues

/-- `DeleteRequest.Values` returns `r.Params` unchanged. -/
def DeleteRequest.Values (r : DeleteRequest) : URLValues :=
  r.Params

/-- `DeleteRequest.Serialize` is `return nil`: it writes nothing and never
fails. -/
def DeleteRequest.Serialize (_ : DeleteRequest) : Except String (List Char) :=
  .ok []

/-- `DeleteRequest.SerializeBatchHeader`: encode
`actionMetadata("delete", ...)`. -/
def DeleteRequest.SerializeBatchHeader (r : DeleteRequest) : Except String (List Char) :=
  .ok (renderActionHeader "delete" r.Index r.Type' r.Id r.Params ++ ['\n'])

/-- A `BatchFireable` member of a batch request: any of the five concrete
request types of the package. -/
inductive Member where
  | search (r : SearchRequest)
  | index (r : IndexRequest)
  | create (r : CreateRequest)
  | update (r : UpdateRequest)
  | delete (r : DeleteRequest)

/-- Dynamic dispatch of `SerializeBatchHeader` on a batch member. -/
def Member.serializeHeader : Member → Except String (List Char)
  | .search r => SearchRequest.SerializeBatchHeader r
  | .index r => IndexRequest.SerializeBatchHeader r
  | .create r => CreateRequest.SerializeBatchHeader r
  | .update r => UpdateRequest.SerializeBatchHeader r
  | .delete r => DeleteRequest.SerializeBatchHeader r

/-- Dynamic dispatch of `Serialize` on a batch member. -/
def Member.serialize : Member → Except String (List Char)
  | .search r => SearchRequest.Serialize r
  | .index r => IndexRequest.Serialize r
  | .create r => CreateRequest.Serialize r
  | .update r => UpdateRequest.Serialize r
  | .delete r => DeleteRequest.Serialize r

/-- The bytes a batch serializer writes for one member: nothing when the
header fails to marshal, the header line alone when the body fails (the
header has already reached the stream), and header line followed by body
bytes otherwise. -/
def memberBytes (m : Member) : List Char :=
  match m.serializeHeader with
  | .error _ => []
  | .ok h => h ++ (match m.serialize with | .ok b => b | .error _ => [])

/-- The diagnostic `MultiSearchRequest.Serialize` logs for a failed header
serialization. -/
def headerLog (e : String) : String :=
  "ElasticSearch: MultiSearchRequest Body header: " ++ e

/-- The diagnostic `MultiSearchRequest.Serialize` logs for a failed body
serialization. -/
def bodyLog (e : String) : String :=
  "ElasticSearch: MultiSearchRequest Body body: " ++ e

/-- The diagnostics one member contributes in a multi-search batch. -/
def memberLogs (m : Member) : List String :=
  match m.serializeHeader with
  | .error e => [headerLog e]
  | .ok _ =>
    match m.serialize with
    | .error e => [bodyLog e]
    | .ok _ => []

/-- `MultiSearchRequest` is `[]BatchFireable`. -/
abbrev MultiSearchRequest := List Member

/-- `BulkIndexRequest` is `[]BatchFireable`. -/
abbrev BulkIndexRequest := List Member

/-- `MultiSearchRequest.Serialize` from `requests.go`: for each member in
order write its batch header then its body; on a failure log a diagnostic,
skip to the next member, and finally `return nil`.  The result is the bytes
written, the diagnostics logged, and the returned error. -/
def MultiSearchRequest.Serialize : MultiSearchRequest → List Char × List String × Option String
  | [] => ([], [], none)
  | m :: rest =>
    let r := MultiSearchRequest.Serialize rest
    match m.serializeHeader with
    | .error e => (r.1, headerLog e :: r.2.1, r.2.2)
    | .ok h =>
      match m.serialize with
      | .error e => (h ++ r.1, bodyLog e :: r.2.1, r.2.2)
      | .ok b => (h ++ b ++ r.1, r.2.1, r.2.2)

/-- `BulkIndexRequest.Serialize`: for each member in order write its batch
header then its body; the first error is returned immediately, leaving the
stream partially written.  The result is the bytes written and the returned
error. -/
def BulkIndexRequest.Serialize : BulkIndexRequest → List Char × Option String
  | [] => ([], none)
  | m :: rest =>
    match m.serializeHeader with
    | .error e => ([], some e)
    | .ok h =>
      match m.serialize with
      | .error e => (h, some e)
      | .ok b =>
        let r := BulkIndexRequest.Serialize rest
        (h ++ b ++ r.1, r.2)

/-- Upper-case hexadecimal digit, as used by Go's `url.QueryEscape`. -/
def hexUpper (n : Nat) : Char :=
  if n < 10 then Char.ofNat (48 + n) else Char.ofNat (55 + n)

/-- `url.QueryEscape` on one character: unreserved characters pass through,
space becomes `+`, anything else is percent-encoded.  (Multi-byte code
points, which Go escapes byte by byte, are not decomposed here; the claims
evaluate this only on ASCII and empty inputs.) -/
def queryEscapeChar (c : Char) : List Char :=
  if ('a' ≤ c ∧ c ≤ 'z') ∨ ('A' ≤ c ∧ c ≤ 'Z') ∨ ('0' ≤ c ∧ c ≤ '9') ∨
      c = '-' ∨ c = '_' ∨ c = '.' ∨ c = '~' then [c]
  else if c = ' ' then ['+']
  else ['%', hexUpper (c.toNat / 16 % 16), hexUpper (c.toNat % 16)]

/-- `url.QueryEscape` over a character list. -/
def queryEscapeList : List Char → List Char
  | [] => []
  | c :: cs => queryEscapeChar c ++ queryEscapeList cs

/-- `url.QueryEscape`. -/
def queryEscape (s : String) : String :=
  String.mk (queryEscapeList s.data)

/-- Go's `sort.Strings`. -/
def sortStrings (l : List String) : List String :=
  List.insertionSort (fun a b : String => a ≤ b) l

/-- `url.Values.Encode`: the empty string for a nil map, otherwise
`k=v` pairs over the sorted keys, every value of a key in order, joined
by `&`. -/
def URLValues.Encode : URLValues → String
  | none => ""
  | some ps =>
    String.intercalate "&"
      ((sortStrings (ps.map Prod.fst)).flatMap fun k =>
        ((lookupA ps k).getD []).map fun v => queryEscape k ++ "=" ++ queryEscape v)

/-! ## Helper lemmas -/

theorem lookupA_updateAssoc_self (m : List (String × String)) (k v : String) :
    lookupA (updateAssoc m k v) k = some v := by
  induction m with
  | nil => simp [updateAssoc, lookupA]
  | cons p rest ih =>
    by_cases h : p.1 = k
    · simp [updateAssoc, h, lookupA]
    · simp [updateAssoc, h, lookupA, ih]

theorem lookupA_updateAssoc_ne (m : List (String × String)) (k v : String) {k' : String}
    (h : k' ≠ k) : lookupA (updateAssoc m k v) k' = lookupA m k' := by
  have hkk : ¬k = k' := fun hk => h hk.symm
  induction m with
  | nil => simp [updateAssoc, lookupA, hkk]
  | cons p rest ih =>
    by_cases hp : p.1 = k
    · subst hp
      simp [updateAssoc, lookupA, hkk]
    · simp only [updateAssoc, hp, if_neg hp, lookupA]
      by_cases hp' : p.1 = k'
      · simp [lookupA, hp']
      · simp [lookupA, hp', ih]

/-- Keys of the association list. -/
def keysOf (m : List (String × String)) : List String :=
  m.map Prod.fst

theorem keysOf_updateAssoc_mem {m : List (String × String)} {k : String} (v : String)
    (h : k ∈ keysOf m) : keysOf (updateAssoc m k v) = keysOf m := by
  induction m with
  | nil => simp [keysOf] at h
  | cons p rest ih =>
    by_cases hp : p.1 = k
    · simp [updateAssoc, hp, keysOf]
    · have h' : k ∈ keysOf rest := by
        rcases (by simpa [keysOf] using h : k = p.1 ∨ k ∈ keysOf rest) with h | h
        · exact absurd h.symm hp
        · exact h
      have := ih h'
      simp only [updateAssoc, if_neg hp, keysOf, List.map_cons] at this ⊢
      rw [this]

theorem keysOf_updateAssoc_notMem {m : List (String × String)} {k : String} (v : String)
    (h : k ∉ keysOf m) : keysOf (updateAssoc m k v) = keysOf m ++ [k] := by
  induction m with
  | nil => simp [updateAssoc, keysOf]
  | cons p rest ih =>
    have hp : p.1 ≠ k := by
      intro hk
      exact h (by simp [keysOf, hk])
    have h' : k ∉ keysOf rest := by
      intro hk
      exact h (by simp [keysOf] at hk ⊢; exact Or.inr hk)
    have := ih h'
    simp only [updateAssoc, if_neg hp, keysOf, List.map_cons] at this ⊢
    rw [this]
    rfl

theorem nodup_keys_updateAssoc {m : List (String × String)} (k v : String)
    (h : (keysOf m).Nodup) : (keysOf (updateAssoc m k v)).Nodup := by
  by_cases hk : k ∈ keysOf m
  · rw [keysOf_updateAssoc_mem v hk]; exact h
  · rw [keysOf_updateAssoc_notMem v hk]
    simp [List.nodup_append, h, hk]

/-- One step of the metadata fold, with the value taken from the entry
itself (equivalent to `valuesGet` on unique-keyed maps). -/
def applyOpt (m : List (String × String)) (kv : String × List String) : List (String × String) :=
  updateAssoc m kv.1 (kv.2.headD "")

/-- The metadata fold with entrywise values. -/
def foldUpd (s : List (String × String)) (l : Values) : List (String × String) :=
  l.foldl applyOpt s

theorem foldl_congr_mem {α β : Type} {f g : α → β → α} {l : List β}
    (h : ∀ b kv, kv ∈ l → f b kv = g b kv) : ∀ s, l.foldl f s = l.foldl g s := by
  induction l with
  | nil => intro s; rfl
  | cons a l ih =>
    intro s
    simp only [List.foldl_cons]
    rw [h s a (by simp)]
    exact ih (fun b kv hkv => h b kv (by simp [hkv])) _

theorem lookupA_eq_of_mem_nodup {ps : Values} {k : String} {vs : List String}
    (hnd : (ps.map Prod.fst).Nodup) (hmem : (k, vs) ∈ ps) : lookupA ps k = some vs := by
  induction ps with
  | nil => simp at hmem
  | cons p rest ih =>
    rcases List.mem_cons.mp hmem with h | h
    · subst h
      simp [lookupA]
    · have hk : p.1 ≠ k := by
        intro hk
        have : k ∈ rest.map Prod.fst := List.mem_map.mpr ⟨(k, vs), h, rfl⟩
        simp only [List.map_cons, List.nodup_cons] at hnd
        exact hnd.1 (hk ▸ this)
      simp only [lookupA, if_neg hk]
      exact ih (by simp only [List.map_cons, List.nodup_cons] at hnd; exact hnd.2) h

theorem valuesGet_eq_headD {ps : Values} {k : String} {vs : List String}
    (hnd : (ps.map Prod.fst).Nodup) (hmem : (k, vs) ∈ ps) :
    valuesGet (some ps) k = vs.headD "" := by
  unfold valuesGet
  rw [Option.getD_some, lookupA_eq_of_mem_nodup hnd hmem]
  cases vs <;> rfl

theorem actionMetadataMap_eq_foldUpd {ps : Values} (index t id : String)
    (hnd : (ps.map Prod.fst).Nodup) :
    actionMetadataMap index t id (some ps) = foldUpd (baseMeta index t id) ps := by
  unfold actionMetadataMap foldUpd
  rw [Option.getD_some]
  exact foldl_congr_mem
    (fun b kv hkv => by
      unfold applyOpt
      rw [valuesGet_eq_headD hnd (by simpa using hkv)]) _

theorem foldUpd_nil (s : List (String × String)) : foldUpd s [] = s :=
  rfl

theorem foldUpd_cons (s : List (String × String)) (a : String × List String) (l : Values) :
    foldUpd s (a :: l) = foldUpd (applyOpt s a) l :=
  rfl

theorem lookupA_foldUpd_notMem {l : Values} {k : String}
    (h : k ∉ l.map Prod.fst) : ∀ s, lookupA (foldUpd s l) k = lookupA s k := by
  induction l with
  | nil => intro s; rfl
  | cons a l ih =>
    intro s
    have hk : k ≠ a.1 := by
      intro hk
      exact h (by simp [hk])
    rw [foldUpd_cons, ih (fun hm => h (by simp [hm]))]
    exact lookupA_updateAssoc_ne _ _ _ hk

theorem lookupA_foldUpd_mem {l : Values} {k : String} {vs : List String}
    (hnd : (l.map Prod.fst).Nodup) (hmem : (k, vs) ∈ l) :
    ∀ s, lookupA (foldUpd s l) k = some (vs.headD "") := by
  induction l with
  | nil => simp at hmem
  | cons a l ih =>
    intro s
    simp only [List.map_cons, List.nodup_cons] at hnd
    rw [foldUpd_cons]
    rcases List.mem_cons.mp hmem with h | h
    · subst h
      rw [lookupA_foldUpd_notMem hnd.1 _]
      exact lookupA_updateAssoc_self _ _ _
    · exact ih hnd.2 h _

theorem updateAssoc_congrPerm {m m' : List (String × String)} (k v : String)
    (hp : m.Perm m') (hnd : (keysOf m).Nodup) :
    (updateAssoc m k v).Perm (updateAssoc m' k v) := by
  induction hp with
  | nil => exact List.Perm.refl _
  | cons a h ih =>
    by_cases ha : a.1 = k
    · simp only [updateAssoc, if_pos ha]
      exact h.cons _
    · simp only [updateAssoc, if_neg ha]
      refine (ih ?_).cons _
      simp only [keysOf, List.map_cons, List.nodup_cons] at hnd
      exact hnd.2
  | swap x y l =>
    have hxy : y.1 ≠ x.1 := by
      simp only [keysOf, List.map_cons, List.nodup_cons, List.mem_cons] at hnd
      exact fun h => hnd.1 (Or.inl h)
    by_cases hy : y.1 = k
    · have hx : x.1 ≠ k := fun h => hxy (hy.trans h.symm)
      simp only [updateAssoc, if_pos hy, if_neg hx]
      exact List.Perm.swap _ _ _
    · by_cases hx : x.1 = k
      · simp only [updateAssoc, if_pos hx, if_neg hy]
        exact List.Perm.swap _ _ _
      · simp only [updateAssoc, if_neg hx, if_neg hy]
        exact List.Perm.swap _ _ _
  | trans h₁ h₂ ih₁ ih₂ =>
    refine (ih₁ hnd).trans (ih₂ ?_)
    exact (h₁.map Prod.fst).nodup_iff.mp hnd

theorem updateAssoc_cons_pos {p : String × String} {rest : List (String × String)}
    {k : String} (v : String) (h : p.1 = k) :
    updateAssoc (p :: rest) k v = (k, v) :: rest := by
  simp [updateAssoc, h]

theorem updateAssoc_cons_neg {p : String × String} {rest : List (String × String)}
    {k : String} (v : String) (h : p.1 ≠ k) :
    updateAssoc (p :: rest) k v = p :: updateAssoc rest k v := by
  simp [updateAssoc, h]

theorem updateAssoc_comm (m : List (String × String)) {k₁ k₂ : String} (v₁ v₂ : String)
    (h : k₁ ≠ k₂) :
    (updateAssoc (updateAssoc m k₁ v₁) k₂ v₂).Perm
      (updateAssoc (updateAssoc m k₂ v₂) k₁ v₁) := by
  induction m with
  | nil =>
    have e1 : updateAssoc ([] : List (String × String)) k₁ v₁ = [(k₁, v₁)] := rfl
    have e2 : updateAssoc [(k₁, v₁)] k₂ v₂ = [(k₁, v₁), (k₂, v₂)] := by
      simp [updateAssoc, h]
    have e3 : updateAssoc ([] : List (String × String)) k₂ v₂ = [(k₂, v₂)] := rfl
    have e4 : updateAssoc [(k₂, v₂)] k₁ v₁ = [(k₂, v₂), (k₁, v₁)] := by
      simp [updateAssoc, Ne.symm h]
    rw [e1, e2, e3, e4]
    exact List.Perm.swap _ _ _
  | cons p rest ih =>
    by_cases h1 : p.1 = k₁
    · have h2 : p.1 ≠ k₂ := fun hh => h (h1.symm.trans hh)
      have e1 : updateAssoc (p :: rest) k₁ v₁ = (k₁, v₁) :: rest :=
        updateAssoc_cons_pos v₁ h1
      have e2 : updateAssoc ((k₁, v₁) :: rest) k₂ v₂ = (k₁, v₁) :: updateAssoc rest k₂ v₂ :=
        updateAssoc_cons_neg v₂ h
      have e3 : updateAssoc (p :: rest) k₂ v₂ = p :: updateAssoc rest k₂ v₂ :=
        updateAssoc_cons_neg v₂ h2
      have e4 : updateAssoc (p :: updateAssoc rest k₂ v₂) k₁ v₁ =
          (k₁, v₁) :: updateAssoc rest k₂ v₂ :=
        updateAssoc_cons_pos v₁ h1
      rw [e1, e2, e3, e4]
    · by_cases h2 : p.1 = k₂
      · have e1 : updateAssoc (p :: rest) k₁ v₁ = p :: updateAssoc rest k₁ v₁ :=
          updateAssoc_cons_neg v₁ h1
        have e2 : updateAssoc (p :: updateAssoc rest k₁ v₁) k₂ v₂ =
            (k₂, v₂) :: updateAssoc rest k₁ v₁ :=
          updateAssoc_cons_pos v₂ h2
        have e3 : updateAssoc (p :: rest) k₂ v₂ = (k₂, v₂) :: rest :=
          updateAssoc_cons_pos v₂ h2
        have e4 : updateAssoc ((k₂, v₂) :: rest) k₁ v₁ = (k₂, v₂) :: updateAssoc rest k₁ v₁ :=
          updateAssoc_cons_neg v₁ (Ne.symm h)
        rw [e1, e2, e3, e4]
      · have e1 : updateAssoc (p :: rest) k₁ v₁ = p :: updateAssoc rest k₁ v₁ :=
          updateAssoc_cons_neg v₁ h1
        have e2 : updateAssoc (p :: updateAssoc rest k₁ v₁) k₂ v₂ =
            p :: updateAssoc (updateAssoc rest k₁ v₁) k₂ v₂ :=
          updateAssoc_cons_neg v₂ h2
        have e3 : updateAssoc (p :: rest) k₂ v₂ = p :: updateAssoc rest k₂ v₂ :=
          updateAssoc_cons_neg v₂ h2
        have e4 : updateAssoc (p :: updateAssoc rest k₂ v₂) k₁ v₁ =
            p :: updateAssoc (updateAssoc rest k₂ v₂) k₁ v₁ :=
          updateAssoc_cons_neg v₁ h1
        rw [e1, e2, e3, e4]
        exact (ih).cons _

theorem nodup_keys_applyOpt {s : List (String × String)} (kv : String × List String)
    (h : (keysOf s).Nodup) : (keysOf (applyOpt s kv)).Nodup :=
  nodup_keys_updateAssoc _ _ h

theorem foldUpd_seed_perm {s s' : List (String × String)} (l : Values)
    (hnd : (keysOf s).Nodup) (hp : s.Perm s') : (foldUpd s l).Perm (foldUpd s' l) := by
  induction l generalizing s s' with
  | nil => exact hp
  | cons a l ih =>
    rw [foldUpd_cons, foldUpd_cons]
    exact ih (nodup_keys_applyOpt a hnd) (updateAssoc_congrPerm _ _ hp hnd)

theorem keysOf_perm {m m' : List (String × String)} (h : m.Perm m') :
    (keysOf m).Perm (keysOf m') :=
  h.map Prod.fst

theorem foldUpd_perm {l l' : Values} (hp : l.Perm l')
    (hnd : (l.map Prod.fst).Nodup) :
    ∀ s : List (String × String), (keysOf s).Nodup → (foldUpd s l).Perm (foldUpd s l') := by
  induction hp with
  | nil => exact fun s _ => List.Perm.refl _
  | cons a h ih =>
    intro s hs
    rw [foldUpd_cons, foldUpd_cons]
    refine ih ?_ _ (nodup_keys_applyOpt a hs)
    simp only [List.map_cons, List.nodup_cons] at hnd
    exact hnd.2
  | swap x y l =>
    intro s hs
    have hxy : y.1 ≠ x.1 := by
      simp only [List.map_cons, List.nodup_cons, List.mem_cons] at hnd
      exact fun h => hnd.1 (Or.inl h)
    rw [foldUpd_cons, foldUpd_cons, foldUpd_cons, foldUpd_cons]
    refine foldUpd_seed_perm l ?_ ?_
    · exact nodup_keys_applyOpt x (nodup_keys_applyOpt y hs)
    · exact updateAssoc_comm s _ _ hxy
  | trans h₁ h₂ ih₁ ih₂ =>
    intro s hs
    refine (ih₁ hnd s hs).trans (ih₂ ?_ s hs)
    exact ((h₁.map Prod.fst).nodup_iff).mp hnd

instance : IsTotal (String × String) lexLe where
  total p q := by
    rcases lt_trichotomy p.1 q.1 with h | h | h
    · exact Or.inl (Or.inl h)
    · rcases le_total p.2 q.2 with h2 | h2
      · exact Or.inl (Or.inr ⟨h, h2⟩)
      · exact Or.inr (Or.inr ⟨h.symm, h2⟩)
    · exact Or.inr (Or.inl h)

instance : IsTrans (String × String) lexLe where
  trans p q r hpq hqr := by
    rcases hpq with h1 | ⟨h1, h1'⟩
    · rcases hqr with h2 | ⟨h2, _⟩
      · exact Or.inl (h1.trans h2)
      · exact Or.inl (h2 ▸ h1)
    · rcases hqr with h2 | ⟨h2, h2'⟩
      · exact Or.inl (h1 ▸ h2)
      · exact Or.inr ⟨h1.trans h2, h1'.trans h2'⟩

instance : IsAntisymm (String × String) lexLe where
  antisymm p q hpq hqp := by
    rcases hpq with h1 | ⟨h1, h1'⟩
    · rcases hqp with h2 | ⟨h2, _⟩
      · exact absurd h2 (lt_asymm h1)
      · exact absurd h1 (h2 ▸ lt_irrefl _)
    · rcases hqp with h2 | ⟨h2, h2'⟩
      · exact absurd h2 (h1 ▸ lt_irrefl _)
      · exact Prod.ext h1 (le_antisymm h1' h2')

theorem sortPairs_congr {l l' : List (String × String)} (h : l.Perm l') :
    sortPairs l = sortPairs l' :=
  List.eq_of_perm_of_sorted
    ((List.perm_insertionSort lexLe l).trans (h.trans (List.perm_insertionSort lexLe l').symm))
    (List.sorted_insertionSort lexLe l) (List.sorted_insertionSort lexLe l')

theorem hexDigit_ne_nl : ∀ n : Nat, n < 16 → hexDigit n ≠ '\n' := by
  decide

theorem nl_notMem_escapeChar (c : Char) : '\n' ∉ escapeChar c := by
  unfold escapeChar
  by_cases h1 : c = '"'
  · simp [h1]
  by_cases h2 : c = '\\'
  · simp [h1, h2]
  by_cases h3 : c = '\n'
  · simp [h1, h2, h3]
  by_cases h4 : c = '\r'
  · simp [h1, h2, h3, h4]
  by_cases h5 : c = '\t'
  · simp [h1, h2, h3, h4, h5]
  by_cases h6 : c = '<'
  · simp [h1, h2, h3, h4, h5, h6]
  by_cases h7 : c = '>'
  · simp [h1, h2, h3, h4, h5, h6, h7]
  by_cases h8 : c = '&'
  · simp [h1, h2, h3, h4, h5, h6, h7, h8]
  by_cases h9 : c.toNat < 32
  · simp only [if_neg h1, if_neg h2, if_neg h3, if_neg h4, if_neg h5, if_neg h6, if_neg h7,
      if_neg h8, if_pos h9, List.mem_cons, List.not_mem_nil, or_false]
    push_neg
    refine ⟨by decide, by decide, by decide, by decide, ?_, ?_⟩
    · exact (hexDigit_ne_nl _ (by omega)).symm
    · exact (hexDigit_ne_nl _ (Nat.mod_lt _ (by omega))).symm
  · simp only [if_neg h1, if_neg h2, if_neg h3, if_neg h4, if_neg h5, if_neg h6, if_neg h7,
      if_neg h8, if_neg h9, List.mem_singleton]
    exact fun hc => h3 hc.symm

theorem nl_notMem_escapeList (s : List Char) : '\n' ∉ escapeList s := by
  induction s with
  | nil => simp [escapeList]
  | cons c cs ih =>
    simp only [escapeList, List.mem_append]
    rintro (h | h)
    · exact nl_notMem_escapeChar c h
    · exact ih h

theorem nl_notMem_quoteJson (s : String) : '\n' ∉ quoteJson s := by
  simp only [quoteJson, List.mem_cons, List.mem_append, List.mem_singleton]
  rintro (h | h | h)
  · exact absurd h (by decide)
  · exact nl_notMem_escapeList _ h
  · exact absurd h (by decide)

theorem nl_notMem_joinComma {xs : List (List Char)} (h : ∀ x ∈ xs, '\n' ∉ x) :
    '\n' ∉ joinComma xs := by
  induction xs with
  | nil => simp [joinComma]
  | cons x xs ih =>
    cases xs with
    | nil => exact h x (by simp)
    | cons y ys =>
      simp only [joinComma, List.mem_append, List.mem_cons]
      rintro (hx | hc | hr)
      · exact h x (by simp) hx
      · exact absurd hc (by decide)
      · exact ih (fun z hz => h z (List.mem_cons_of_mem _ hz)) hr

theorem nl_notMem_renderField (p : String × String) : '\n' ∉ renderField p := by
  simp only [renderField, List.mem_append, List.mem_cons]
  rintro (h | h | h)
  · exact nl_notMem_quoteJson _ h
  · exact absurd h (by decide)
  · exact nl_notMem_quoteJson _ h

theorem nl_notMem_renderObj (m : List (String × String)) : '\n' ∉ renderObj m := by
  simp only [renderObj, List.mem_cons, List.mem_append, List.mem_singleton]
  rintro (h | h | h)
  · exact absurd h (by decide)
  · exact nl_notMem_joinComma (by
      intro x hx
      rcases List.mem_map.mp hx with ⟨p, _, rfl⟩
      exact nl_notMem_renderField p) h
  · exact absurd h (by decide)

theorem nl_notMem_renderActionHeader (action index t id : String) (v : URLValues) :
    '\n' ∉ renderActionHeader action index t id v := by
  simp only [renderActionHeader, List.mem_cons, List.mem_append, List.mem_singleton]
  rintro (h | h | h | h | h)
  · exact absurd h (by decide)
  · exact nl_notMem_quoteJson _ h
  · exact absurd h (by decide)
  · exact nl_notMem_renderObj _ h
  · exact absurd h (by decide)

theorem nl_notMem_renderStrArray (xs : List String) : '\n' ∉ renderStrArray xs := by
  simp only [renderStrArray, List.mem_cons, List.mem_append, List.mem_singleton]
  rintro (h | h | h)
  · exact absurd h (by decide)
  · exact nl_notMem_joinComma (by
      intro x hx
      rcases List.mem_map.mp hx with ⟨s, _, rfl⟩
      exact nl_notMem_quoteJson s) h
  · exact absurd h (by decide)

theorem nl_notMem_renderSearchHeader (indices types : List String) :
    '\n' ∉ renderSearchHeader indices types := by
  simp only [renderSearchHeader, List.mem_cons, List.mem_append, List.mem_singleton]
  rintro (h | h | h)
  · exact absurd h (by decide)
  · refine nl_notMem_joinComma ?_ h
    intro x hx
    simp only [searchHeaderFields, List.mem_append] at hx
    rcases hx with hx | hx
    · rcases (show x = quoteJson "index" ++ ':' :: renderStrArray indices by
        by_cases hi : indices = []
        · simp [hi] at hx
        · simpa [hi] using hx) with rfl
      simp only [List.mem_append, List.mem_cons]
      rintro (hq | hc | ha)
      · exact nl_notMem_quoteJson _ hq
      · exact absurd hc (by decide)
      · exact nl_notMem_renderStrArray _ ha
    · rcases (show x = quoteJson "type" ++ ':' :: renderStrArray types by
        by_cases ht : types = []
        · simp [ht] at hx
        · simpa [ht] using hx) with rfl
      simp only [List.mem_append, List.mem_cons]
      rintro (hq | hc | ha)
      · exact nl_notMem_quoteJson _ hq
      · exact absurd hc (by decide)
      · exact nl_notMem_renderStrArray _ ha
  · exact absurd h (by decide)

theorem count_nl_line {l : List Char} (h : '\n' ∉ l) :
    (l ++ ['\n']).count '\n' = 1 := by
  rw [List.count_append]
  rw [List.count_eq_zero.mpr h]
  rfl

theorem getLast_line (l : List Char) : (l ++ ['\n']).getLast? = some '\n' := by
  rw [List.getLast?_append_of_ne_nil l (by simp)]
  rfl

theorem member_header_shape (m : Member) :
    ∃ hb, m.serializeHeader = Except.ok (hb ++ ['\n']) ∧ '\n' ∉ hb := by
  cases m with
  | search r => exact ⟨_, rfl, nl_notMem_renderSearchHeader _ _⟩
  | index r => exact ⟨_, rfl, nl_notMem_renderActionHeader _ _ _ _ _⟩
  | create r => exact ⟨_, rfl, nl_notMem_renderActionHeader _ _ _ _ _⟩
  | update r => exact ⟨_, rfl, nl_notMem_renderActionHeader _ _ _ _ _⟩
  | delete r => exact ⟨_, rfl, nl_notMem_renderActionHeader _ _ _ _ _⟩

theorem memberBytes_eq_of_ok {m : Member} {h b : List Char}
    (hh : m.serializeHeader = .ok h) (hb : m.serialize = .ok b) :
    memberBytes m = h ++ b := by
  simp [memberBytes, hh, hb]

theorem memberBytes_eq_of_bodyErr {m : Member} {h : List Char} {e : String}
    (hh : m.serializeHeader = .ok h) (hb : m.serialize = .error e) :
    memberBytes m = h := by
  simp [memberBytes, hh, hb]

theorem memberBytes_eq_of_headerErr {m : Member} {e : String}
    (hh : m.serializeHeader = .error e) : memberBytes m = [] := by
  simp [memberBytes, hh]

theorem member_serialize_ok_shape {m : Member} {b : List Char} (h : m.serialize = .ok b) :
    b = [] ∨ ∃ q, b = q ++ ['\n'] := by
  cases m with
  | search r =>
    cases hq : r.Query with
    | ok q =>
      right
      refine ⟨q, ?_⟩
      simp [Member.serialize, SearchRequest.Serialize, hq] at h
      exact h.symm
    | error e => simp [Member.serialize, SearchRequest.Serialize, hq] at h
  | index r =>
    cases hq : r.Source with
    | ok q =>
      right
      refine ⟨q, ?_⟩
      simp [Member.serialize, IndexRequest.Serialize, hq] at h
      exact h.symm
    | error e => simp [Member.serialize, IndexRequest.Serialize, hq] at h
  | create r =>
    cases hq : r.Source with
    | ok q =>
      right
      refine ⟨q, ?_⟩
      simp [Member.serialize, CreateRequest.Serialize, hq] at h
      exact h.symm
    | error e => simp [Member.serialize, CreateRequest.Serialize, hq] at h
  | update r =>
    cases hq : r.Source with
    | ok q =>
      right
      refine ⟨q, ?_⟩
      simp [Member.serialize, UpdateRequest.Serialize, hq] at h
      exact h.symm
    | error e => simp [Member.serialize, UpdateRequest.Serialize, hq] at h
  | delete r =>
    left
    simp [Member.serialize, DeleteRequest.Serialize] at h
    exact h

theorem memberBytes_getLast (m : Member) : (memberBytes m).getLast? = some '\n' := by
  obtain ⟨hb, hh, _⟩ := member_header_shape m
  cases hs : m.serialize with
  | error e =>
    rw [memberBytes_eq_of_bodyErr hh hs]
    exact getLast_line _
  | ok b =>
    rw [memberBytes_eq_of_ok hh hs]
    rcases member_serialize_ok_shape hs with rfl | ⟨q, rfl⟩
    · rw [List.append_nil]
      exact getLast_line _
    · rw [List.getLast?_append_of_ne_nil _ (by simp)]
      exact getLast_line _

theorem memberBytes_ne_nil (m : Member) : memberBytes m ≠ [] := by
  intro h
  have := memberBytes_getLast m
  rw [h] at this
  simp at this

theorem msearch_serialize_eq (ms : MultiSearchRequest) :
    MultiSearchRequest.Serialize ms =
      ((ms.map memberBytes).flatten, (ms.map memberLogs).flatten, none) := by
  induction ms with
  | nil => rfl
  | cons m rest ih =>
    cases hh : m.serializeHeader with
    | error e =>
      simp [MultiSearchRequest.Serialize, hh, ih, memberBytes_eq_of_headerErr hh, memberLogs]
    | ok h =>
      cases hs : m.serialize with
      | error e =>
        simp [MultiSearchRequest.Serialize, hh, hs, ih,
          memberBytes_eq_of_bodyErr hh hs, memberLogs]
      | ok b =>
        simp [MultiSearchRequest.Serialize, hh, hs, ih,
          memberBytes_eq_of_ok hh hs, memberLogs]

/-- A member whose header and body both serialize successfully. -/
def memberOk (m : Member) : Prop :=
  (∃ h, m.serializeHeader = Except.ok h) ∧ (∃ b, m.serialize = Except.ok b)

theorem bulk_serialize_allOk {ms : BulkIndexRequest} (hok : ∀ m ∈ ms, memberOk m) :
    BulkIndexRequest.Serialize ms = ((ms.map memberBytes).flatten, none) := by
  induction ms with
  | nil => rfl
  | cons m rest ih =>
    obtain ⟨⟨h, hh⟩, ⟨b, hb⟩⟩ := hok m (by simp)
    simp [BulkIndexRequest.Serialize, hh, hb, ih (fun x hx => hok x (by simp [hx])),
      memberBytes_eq_of_ok hh hb]

theorem bulk_serialize_firstErr {pre post : List Member} {m : Member} {e : String}
    (hpre : ∀ x ∈ pre, memberOk x)
    (hfail : m.serializeHeader = Except.error e ∨
      ∃ h, m.serializeHeader = Except.ok h ∧ m.serialize = Except.error e) :
    BulkIndexRequest.Serialize (pre ++ m :: post) =
      ((pre.map memberBytes).flatten ++ memberBytes m, some e) := by
  induction pre with
  | nil =>
    rcases hfail with hh | ⟨h, hh, hb⟩
    · simp [BulkIndexRequest.Serialize, hh, memberBytes_eq_of_headerErr hh]
    · simp [BulkIndexRequest.Serialize, hh, hb, memberBytes_eq_of_bodyErr hh hb]
  | cons x pre ih =>
    obtain ⟨⟨h, hh⟩, ⟨b, hb⟩⟩ := hpre x (by simp)
    simp [BulkIndexRequest.Serialize, hh, hb, ih (fun y hy => hpre y (by simp [hy])),
      memberBytes_eq_of_ok hh hb]

/-! ## Claim theorems -/

/-- C2: for every `BulkIndexRequest`, `Serialize` writes each member's batch
header line and then its body line in sequence order (when every member
serializes, the output is the in-order concatenation of the members' header
and body bytes and no error is returned); and if some member's header or
body serialization returns an error, serialization stops at that member and
the error is returned: the output consists of the fully serialized earlier
members plus whatever the failing member managed to write (its header line
when only the body failed, nothing when the header failed), and no
subsequent member is written. -/
theorem c2_bulk_inorder_failfast :
    (∀ ms : BulkIndexRequest, (∀ m ∈ ms, memberOk m) →
      BulkIndexRequest.Serialize ms = ((ms.map memberBytes).flatten, none)) ∧
    (∀ (pre post : List Member) (m : Member) (e : String),
      (∀ x ∈ pre, memberOk x) →
      (m.serializeHeader = Except.error e ∨
        ∃ h, m.serializeHeader = Except.ok h ∧ m.serialize = Except.error e) →
      BulkIndexRequest.Serialize (pre ++ m :: post) =
        ((pre.map memberBytes).flatten ++ memberBytes m, some e)) :=
  ⟨fun _ hok => bulk_serialize_allOk hok,
    fun _ _ _ _ hpre hfail => bulk_serialize_firstErr hpre hfail⟩

/-- Witness for C2 at a concrete batch: a well-formed delete, then an index
operation whose document payload fails to marshal, then another member; the
bulk serialization stops at the failing member and returns its error, and
the trailing member contributes nothing. -/
theorem c2_bulk_inorder_failfast_witness :
    BulkIndexRequest.Serialize
        ([Member.delete ⟨"foo", "bar", "321", none⟩] ++
          Member.index ⟨"foo", "bar", "123", none, Except.error "boom"⟩ ::
            [Member.delete ⟨"a", "b", "c", none⟩]) =
      (([Member.delete ⟨"foo", "bar", "321", none⟩].map memberBytes).flatten ++
        memberBytes (Member.index ⟨"foo", "bar", "123", none, Except.error "boom"⟩),
        some "boom") :=
  c2_bulk_inorder_failfast.2 _ _ _ _
    (by
      intro x hx
      rw [List.mem_singleton] at hx
      subst hx
      exact ⟨⟨_, rfl⟩, ⟨_, rfl⟩⟩)
    (Or.inr ⟨_, rfl, rfl⟩)

/-- C3: for every `MultiSearchRequest`, `Serialize` never returns an error:
every member's failure is caught, the corresponding diagnostic is logged,
and processing continues with the next member in order — the output is the
in-order concatenation of each member's contribution and the log is the
in-order concatenation of each member's diagnostics. -/
theorem c3_msearch_never_errors (ms : MultiSearchRequest) :
    (MultiSearchRequest.Serialize ms).2.2 = none ∧
    (MultiSearchRequest.Serialize ms).1 = (ms.map memberBytes).flatten ∧
    (MultiSearchRequest.Serialize ms).2.1 = (ms.map memberLogs).flatten := by
  rw [msearch_serialize_eq ms]
  exact ⟨rfl, rfl, rfl⟩

/-- C1, counterexample: the claim says a Delete inside a bulk batch
contributes an empty, newline-terminated body line that is present in the
output.  In the code `DeleteRequest.Serialize` is `return nil`: it writes
nothing, so the bulk serialization of a single delete operation contains
exactly one newline — the header line's — and no empty body line. -/
theorem c1_counterexample :
    DeleteRequest.Serialize ⟨"foo", "bar", "123", none⟩ = Except.ok [] ∧
    (BulkIndexRequest.Serialize [Member.delete ⟨"foo", "bar", "123", none⟩]).1.count '\n' = 1 := by
  constructor
  · rfl
  · have e : (BulkIndexRequest.Serialize [Member.delete ⟨"foo", "bar", "123", none⟩]).1 =
        renderActionHeader "delete" "foo" "bar" "123" none ++ ['\n'] := by
      simp [BulkIndexRequest.Serialize, Member.serializeHeader, Member.serialize,
        DeleteRequest.Serialize, DeleteRequest.SerializeBatchHeader]
    rw [e]
    exact count_nl_line (nl_notMem_renderActionHeader _ _ _ _ _)

/-- C1, amended: in batch context every operation contributes exactly one
header line, and Index/Create/Update/Search each contribute one
newline-terminated body line (the encoded payload followed by the encoder's
newline — a single line whenever the marshalled payload holds no raw
newline, as Go's JSON marshalling guarantees); but `DeleteRequest.Serialize`
writes nothing at all (`return nil`), so a Delete inside a
`BulkIndexRequest` contributes no body bytes whatsoever — its body line is
omitted entirely, not written as an empty newline-terminated line. -/
theorem c1_amended (r : DeleteRequest) :
    (∀ m : Member, ∃ hb, m.serializeHeader = Except.ok (hb ++ ['\n']) ∧
      (hb ++ ['\n']).count '\n' = 1) ∧
    (∀ (ri : IndexRequest) (q : List Char), ri.Source = Except.ok q →
      IndexRequest.Serialize ri = Except.ok (q ++ ['\n']) ∧
      (q ++ ['\n']).getLast? = some '\n' ∧
      ('\n' ∉ q → (q ++ ['\n']).count '\n' = 1)) ∧
    (∀ (rc : CreateRequest) (q : List Char), rc.Source = Except.ok q →
      CreateRequest.Serialize rc = Except.ok (q ++ ['\n']) ∧
      (q ++ ['\n']).getLast? = some '\n' ∧
      ('\n' ∉ q → (q ++ ['\n']).count '\n' = 1)) ∧
    (∀ (ru : UpdateRequest) (q : List Char), ru.Source = Except.ok q →
      UpdateRequest.Serialize ru = Except.ok (q ++ ['\n']) ∧
      (q ++ ['\n']).getLast? = some '\n' ∧
      ('\n' ∉ q → (q ++ ['\n']).count '\n' = 1)) ∧
    (∀ (rs : SearchRequest) (q : List Char), rs.Query = Except.ok q →
      SearchRequest.Serialize rs = Except.ok (q ++ ['\n']) ∧
      (q ++ ['\n']).getLast? = some '\n' ∧
      ('\n' ∉ q → (q ++ ['\n']).count '\n' = 1)) ∧
    DeleteRequest.Serialize r = Except.ok [] ∧
    BulkIndexRequest.Serialize [Member.delete r] =
      (renderActionHeader "delete" r.Index r.Type' r.Id r.Params ++ ['\n'], none) ∧
    (BulkIndexRequest.Serialize [Member.delete r]).1.count '\n' = 1 := by
  have e : BulkIndexRequest.Serialize [Member.delete r] =
      (renderActionHeader "delete" r.Index r.Type' r.Id r.Params ++ ['\n'], none) := by
    simp [BulkIndexRequest.Serialize, Member.serializeHeader, Member.serialize,
      DeleteRequest.Serialize, DeleteRequest.SerializeBatchHeader]
  refine ⟨?_, ?_, ?_, ?_, ?_, rfl, e, ?_⟩
  · intro m
    obtain ⟨hb, hh, hnl⟩ := member_header_shape m
    exact ⟨hb, hh, count_nl_line hnl⟩
  · intro ri q h
    exact ⟨by simp [IndexRequest.Serialize, h], getLast_line q, fun hq => count_nl_line hq⟩
  · intro rc q h
    exact ⟨by simp [CreateRequest.Serialize, h], getLast_line q, fun hq => count_nl_line hq⟩
  · intro ru q h
    exact ⟨by simp [UpdateRequest.Serialize, h], getLast_line q, fun hq => count_nl_line hq⟩
  · intro rs q h
    exact ⟨by simp [SearchRequest.Serialize, h], getLast_line q, fun hq => count_nl_line hq⟩
  · rw [e]
    exact count_nl_line (nl_notMem_renderActionHeader _ _ _ _ _)

/-- C4, counterexample: the claim says that with one well-formed member and
one member whose body fails to serialize, the output holds only the
well-formed member's header and body lines (two newlines in total) and the
failing member contributes nothing, not even its header.  In the streaming
code the failing member's header is written before the body failure is
discovered: the output has three newline-terminated lines. -/
theorem c4_counterexample :
    (MultiSearchRequest.Serialize
        [Member.search ⟨["a"], [], Except.ok ['x'], none⟩,
          Member.search ⟨["b"], [], Except.error "boom", none⟩]).1.count '\n' = 3 ∧
    (MultiSearchRequest.Serialize
        [Member.search ⟨["a"], [], Except.ok ['x'], none⟩,
          Member.search ⟨["b"], [], Except.error "boom", none⟩]).1 ≠
      (renderSearchHeader ["a"] [] ++ ['\n']) ++ (['x'] ++ ['\n']) ∧
    (MultiSearchRequest.Serialize
        [Member.search ⟨["a"], [], Except.ok ['x'], none⟩,
          Member.search ⟨["b"], [], Except.error "boom", none⟩]).2.2 = none := by
  refine ⟨by decide, by decide, rfl⟩

/-- C4, amended: given one well-formed member and one member whose header
serializes but whose body fails, the multi-search output is the well-formed
member's header and body lines followed by the failing member's header line
(already written when the body failure is detected); the failing member's
body is omitted, the body-failure diagnostic is logged, no error is
returned, and the output still ends with a trailing newline. -/
theorem c4_amended (g b : Member) (gh gb bh : List Char) (e : String)
    (h1 : g.serializeHeader = Except.ok gh) (h2 : g.serialize = Except.ok gb)
    (h3 : b.serializeHeader = Except.ok bh) (h4 : b.serialize = Except.error e) :
    MultiSearchRequest.Serialize [g, b] = (gh ++ gb ++ bh, [bodyLog e], none) ∧
    (gh ++ gb ++ bh).getLast? = some '\n' := by
  constructor
  · simp [MultiSearchRequest.Serialize, h1, h2, h3, h4, List.append_assoc]
  · obtain ⟨hb', hh', _⟩ := member_header_shape b
    have hbh : bh = hb' ++ ['\n'] := Except.ok.inj (h3.symm.trans hh')
    subst hbh
    rw [List.getLast?_append_of_ne_nil _ (by simp)]
    exact getLast_line _

/-- Witness for C4 (amended) at a concrete batch: a well-formed search and a
search whose opaque query payload fails to marshal. -/
theorem c4_amended_witness :
    MultiSearchRequest.Serialize
        [Member.search ⟨["a"], [], Except.ok ['x'], none⟩,
          Member.search ⟨["b"], [], Except.error "boom", none⟩] =
      ((renderSearchHeader ["a"] [] ++ ['\n']) ++ (['x'] ++ ['\n']) ++
        (renderSearchHeader ["b"] [] ++ ['\n']), [bodyLog "boom"], none) ∧
    ((renderSearchHeader ["a"] [] ++ ['\n']) ++ (['x'] ++ ['\n']) ++
      (renderSearchHeader ["b"] [] ++ ['\n'])).getLast? = some '\n' :=
  c4_amended _ _ _ _ _ _ rfl rfl rfl rfl

/-- C5, counterexample: the claim says the serialized multi-search body ends
with a trailing newline even for an empty batch, but the streaming code
writes nothing at all for an empty `MultiSearchRequest`, so the output is
empty and does not end with a newline. -/
theorem c5_counterexample :
    MultiSearchRequest.Serialize ([] : MultiSearchRequest) = ([], [], none) ∧
    (MultiSearchRequest.Serialize ([] : MultiSearchRequest)).1.getLast? ≠ some '\n' := by
  exact ⟨rfl, by decide⟩

theorem flatten_memberBytes_getLast :
    ∀ ms : List Member, ms ≠ [] → ((ms.map memberBytes).flatten).getLast? = some '\n' := by
  intro ms
  induction ms with
  | nil => intro h; exact absurd rfl h
  | cons m rest ih =>
    intro _
    rw [List.map_cons, List.flatten_cons]
    by_cases hr : rest = []
    · subst hr
      simp only [List.map_nil, List.flatten_nil, List.append_nil]
      exact memberBytes_getLast m
    · have h2 : ((rest.map memberBytes).flatten) ≠ [] := by
        intro hnil
        have := ih hr
        rw [hnil] at this
        simp at this
      rw [List.getLast?_append_of_ne_nil _ h2]
      exact ih hr

/-- C5, amended: the serialized multi-search body ends with a trailing
newline whenever the batch is non-empty (every member contributes at least
its newline-terminated header line, since header marshalling of these
request types cannot fail; members skipped at the body stage still leave
their header line); an empty batch produces empty output with no
newline. -/
theorem c5_amended (ms : MultiSearchRequest) (h : ms ≠ []) :
    (MultiSearchRequest.Serialize ms).1.getLast? = some '\n' := by
  rw [msearch_serialize_eq]
  exact flatten_memberBytes_getLast ms h

/-- Witness for C5 (amended) at a concrete one-member batch. -/
theorem c5_amended_witness :
    (MultiSearchRequest.Serialize
        [Member.search ⟨["a"], [], Except.ok ['x'], none⟩]).1.getLast? = some '\n' :=
  c5_amended _ (by simp)

/-- C6: for every write operation, `SerializeBatchHeader` writes exactly one
newline-terminated line rendering `{verb: {_index, _type, _id, extra
options}}` — the verb being `index`/`create`/`update`/`delete` respectively —
and in the metadata object every extra option is flattened to the single
string `v.Get(k)`: a multi-valued option contributes only its first
value. -/
theorem c6_write_header_line (ix t id : String) (ps : Values) (src : Except String (List Char))
    (hnd : (ps.map Prod.fst).Nodup) :
    IndexRequest.SerializeBatchHeader ⟨ix, t, id, some ps, src⟩ =
      Except.ok (renderActionHeader "index" ix t id (some ps) ++ ['\n']) ∧
    CreateRequest.SerializeBatchHeader ⟨ix, t, id, some ps, src⟩ =
      Except.ok (renderActionHeader "create" ix t id (some ps) ++ ['\n']) ∧
    UpdateRequest.SerializeBatchHeader ⟨ix, t, id, some ps, src⟩ =
      Except.ok (renderActionHeader "update" ix t id (some ps) ++ ['\n']) ∧
    DeleteRequest.SerializeBatchHeader ⟨ix, t, id, some ps⟩ =
      Except.ok (renderActionHeader "delete" ix t id (some ps) ++ ['\n']) ∧
    (∀ verb, (renderActionHeader verb ix t id (some ps) ++ ['\n']).count '\n' = 1) ∧
    (∀ k vs, (k, vs) ∈ ps →
      lookupA (actionMetadataMap ix t id (some ps)) k = some (vs.headD "")) := by
  refine ⟨rfl, rfl, rfl, rfl, ?_, ?_⟩
  · intro verb
    exact count_nl_line (nl_notMem_renderActionHeader _ _ _ _ _)
  · intro k vs hmem
    rw [actionMetadataMap_eq_foldUpd _ _ _ hnd]
    exact lookupA_foldUpd_mem hnd hmem _

/-- Witness for C6 at a concrete request: a two-valued `refresh` option is
flattened to its first value in the batch-header metadata. -/
theorem c6_write_header_line_witness :
    lookupA (actionMetadataMap "foo" "bar" "123" (some [("refresh", ["true", "false"])]))
      "refresh" = some "true" :=
  (c6_write_header_line "foo" "bar" "123" [("refresh", ["true", "false"])] (Except.ok [])
    (by decide)).2.2.2.2.2 "refresh" ["true", "false"] (by decide)

/-- C7: `SearchRequest.Path` returns exactly one of the four documented
shapes, chosen solely by emptiness of the index and type lists, each list
comma-joined in the order given. -/
theorem c7_search_path_four_shapes (r : SearchRequest) :
    (r.Indices = [] → r.Types = [] → r.Path = "/_search") ∧
    (r.Indices ≠ [] → r.Types = [] →
      r.Path = "/" ++ String.intercalate "," r.Indices ++ "/_search") ∧
    (r.Indices = [] → r.Types ≠ [] →
      r.Path = "/_all/" ++ String.intercalate "," r.Types ++ "/_search") ∧
    (r.Indices ≠ [] → r.Types ≠ [] →
      r.Path = "/" ++ String.intercalate "," r.Indices ++ "/" ++
        String.intercalate "," r.Types ++ "/_search") := by
  refine ⟨?_, ?_, ?_, ?_⟩ <;> intro h1 h2 <;>
    simp [SearchRequest.Path, h1, h2, List.length_eq_zero, List.length_pos]

/-- Witness for C7 at a concrete request hitting the both-non-empty shape,
with order-preserving comma joins. -/
theorem c7_search_path_four_shapes_witness :
    SearchRequest.Path ⟨["i1", "i2"], ["t1"], Except.ok [], none⟩ =
      "/" ++ String.intercalate "," ["i1", "i2"] ++ "/" ++
        String.intercalate "," ["t1"] ++ "/_search" :=
  (c7_search_path_four_shapes ⟨["i1", "i2"], ["t1"], Except.ok [], none⟩).2.2.2
    (by decide) (by decide)

/-- C8, counterexample: an `IndexRequest` constructed with no explicit query
options returns its `Params` field unchanged from `Values()` — the nil map,
not an empty non-nil mapping; only `SearchRequest.Values` guards against
nil. -/
theorem c8_counterexample :
    IndexRequest.Values ⟨"foo", "bar", "123", none, Except.ok []⟩ = none ∧
    IndexRequest.Values ⟨"foo", "bar", "123", none, Except.ok []⟩ ≠ some [] := by
  exact ⟨rfl, by decide⟩

/-- C8, amended: with no explicit options, `SearchRequest.Values` returns
the empty non-nil mapping, while the write operations return `Params`
unchanged — the nil mapping; in every case the result encodes to the empty
string. -/
theorem c8_amended :
    (∀ r : SearchRequest, r.Params = none →
      SearchRequest.Values r = some [] ∧ URLValues.Encode (SearchRequest.Values r) = "") ∧
    (∀ r : IndexRequest, r.Params = none →
      IndexRequest.Values r = none ∧ URLValues.Encode (IndexRequest.Values r) = "") ∧
    (∀ r : CreateRequest, r.Params = none →
      CreateRequest.Values r = none ∧ URLValues.Encode (CreateRequest.Values r) = "") ∧
    (∀ r : UpdateRequest, r.Params = none →
      UpdateRequest.Values r = none ∧ URLValues.Encode (UpdateRequest.Values r) = "") ∧
    (∀ r : DeleteRequest, r.Params = none →
      DeleteRequest.Values r = none ∧ URLValues.Encode (DeleteRequest.Values r) = "") := by
  have enc : URLValues.Encode (some []) = "" := rfl
  have encn : URLValues.Encode none = "" := rfl
  refine ⟨?_, ?_, ?_, ?_, ?_⟩ <;> intro r h <;>
    simp [SearchRequest.Values, IndexRequest.Values, CreateRequest.Values,
      UpdateRequest.Values, DeleteRequest.Values, h, enc, encn]

/-- Witness for C8 (amended) at a concrete option-less index request. -/
theorem c8_amended_witness :
    IndexRequest.Values ⟨"foo", "bar", "123", none, Except.ok []⟩ = none ∧
    URLValues.Encode (IndexRequest.Values ⟨"foo", "bar", "123", none, Except.ok []⟩) = "" :=
  c8_amended.2.1 ⟨"foo", "bar", "123", none, Except.ok []⟩ rfl

/-- C9: when the extra-options mapping contains a key named `_index`,
`_type` or `_id`, the flattened option value overwrites the operation's own
field in the batch-header metadata object, because options are merged into
the metadata map after the base fields are set. -/
theorem c9_options_overwrite_base (ix t id : String) (ps : Values)
    (hnd : (ps.map Prod.fst).Nodup) :
    (∀ vs, ("_index", vs) ∈ ps →
      lookupA (actionMetadataMap ix t id (some ps)) "_index" = some (vs.headD "")) ∧
    (∀ vs, ("_type", vs) ∈ ps →
      lookupA (actionMetadataMap ix t id (some ps)) "_type" = some (vs.headD "")) ∧
    (∀ vs, ("_id", vs) ∈ ps →
      lookupA (actionMetadataMap ix t id (some ps)) "_id" = some (vs.headD "")) := by
  refine ⟨?_, ?_, ?_⟩ <;> intro vs hmem <;>
    (rw [actionMetadataMap_eq_foldUpd _ _ _ hnd]; exact lookupA_foldUpd_mem hnd hmem _)

/-- Witness for C9 at a concrete request: an `_index` option replaces the
request's own index name `foo` in the metadata. -/
theorem c9_options_overwrite_base_witness :
    lookupA (actionMetadataMap "foo" "bar" "123" (some [("_index", ["other"])])) "_index" =
      some "other" :=
  (c9_options_overwrite_base "foo" "bar" "123" [("_index", ["other"])] (by decide)).1
    ["other"] (by decide)

/-- C10: serialization is deterministic and idempotent.  All serialization
functions here are pure functions of the request value, so two runs on the
same immutable operation agree definitionally; the one source of run-to-run
variation in the original — the iteration order of the `Params` map in
`actionMetadata` — is quantified by a permutation: permuting the parameter
entries leaves every batch header byte-identical, because the rendered
metadata object is sorted by key. -/
theorem c10_serialization_deterministic (ix t id : String) (src : Except String (List Char))
    (ps ps' : Values) (hperm : ps.Perm ps') (hnd : (ps.map Prod.fst).Nodup) :
    IndexRequest.SerializeBatchHeader ⟨ix, t, id, some ps, src⟩ =
      IndexRequest.SerializeBatchHeader ⟨ix, t, id, some ps', src⟩ ∧
    CreateRequest.SerializeBatchHeader ⟨ix, t, id, some ps, src⟩ =
      CreateRequest.SerializeBatchHeader ⟨ix, t, id, some ps', src⟩ ∧
    UpdateRequest.SerializeBatchHeader ⟨ix, t, id, some ps, src⟩ =
      UpdateRequest.SerializeBatchHeader ⟨ix, t, id, some ps', src⟩ ∧
    DeleteRequest.SerializeBatchHeader ⟨ix, t, id, some ps⟩ =
      DeleteRequest.SerializeBatchHeader ⟨ix, t, id, some ps'⟩ := by
  have hnd' : (ps'.map Prod.fst).Nodup := ((hperm.map Prod.fst).nodup_iff).mp hnd
  have hb : (keysOf (baseMeta ix t id)).Nodup := by
    show (["_index", "_type", "_id"] : List String).Nodup
    decide
  have hperm2 : (actionMetadataMap ix t id (some ps)).Perm
      (actionMetadataMap ix t id (some ps')) := by
    rw [actionMetadataMap_eq_foldUpd _ _ _ hnd, actionMetadataMap_eq_foldUpd _ _ _ hnd']
    exact foldUpd_perm hperm hnd _ hb
  have key : ∀ verb, renderActionHeader verb ix t id (some ps) =
      renderActionHeader verb ix t id (some ps') := by
    intro verb
    unfold renderActionHeader renderObj
    rw [sortPairs_congr hperm2]
  refine ⟨?_, ?_, ?_, ?_⟩
  · simp only [IndexRequest.SerializeBatchHeader]
    rw [key "index"]
  · simp only [CreateRequest.SerializeBatchHeader]
    rw [key "create"]
  · simp only [UpdateRequest.SerializeBatchHeader]
    rw [key "update"]
  · simp only [DeleteRequest.SerializeBatchHeader]
    rw [key "delete"]

/-- Witness for C10 at a concrete request: the two iteration orders of a
two-entry parameter map serialize to byte-identical headers. -/
theorem c10_serialization_deterministic_witness :
    IndexRequest.SerializeBatchHeader
        ⟨"foo", "bar", "123", some [("a", ["1"]), ("b", ["2"])], Except.ok []⟩ =
      IndexRequest.SerializeBatchHeader
        ⟨"foo", "bar", "123", some [("b", ["2"]), ("a", ["1"])], Except.ok []⟩ :=
  (c10_serialization_deterministic "foo" "bar" "123" (Except.ok [])
    [("a", ["1"]), ("b", ["2"])] [("b", ["2"]), ("a", ["1"])]
    (List.Perm.swap _ _ _) (by decide)).1

/-- Witness for C1 (amended) at concrete requests: an index request with a
successfully marshalled one-character payload writes exactly one
newline-terminated body line, while a delete request writes nothing. -/
theorem c1_amended_witness :
    IndexRequest.Serialize ⟨"w", "x", "y", none, Except.ok ['a']⟩ =
      Except.ok (['a'] ++ ['\n']) ∧
    (['a'] ++ ['\n']).count '\n' = 1 ∧
    DeleteRequest.Serialize ⟨"w", "x", "y", none⟩ = Except.ok [] :=
  ⟨((c1_amended ⟨"w", "x", "y", none⟩).2.1 ⟨"w", "x", "y", none, Except.ok ['a']⟩ ['a'] rfl).1,
    ((c1_amended ⟨"w", "x", "y", none⟩).2.1 ⟨"w", "x", "y", none, Except.ok ['a']⟩ ['a'] rfl).2.2
      (by decide),
    (c1_amended ⟨"w", "x", "y", none⟩).2.2.2.2.2.1⟩

/-- Witness for C3 at a concrete batch containing a failing member: no error
is returned. -/
theorem c3_msearch_never_errors_witness :
    (MultiSearchRequest.Serialize
        [Member.search ⟨["c"], [], Except.error "bad", none⟩]).2.2 = none :=
  (c3_msearch_never_errors [Member.search ⟨["c"], [], Except.error "bad", none⟩]).1
